import Mathlib

/-!
# Source-state engine of autobuild: `state/source_state.go`

A shallow embedding of `SourceState.Changed`, `SourceState.BuildGraph` and `LoadSource`
together with the properties of the discovery walk, the name index and the snapshot
differ that the specification states about them.

Modelling conventions.

* Go `int` values (positions, release numbers, map values) are `Int`; the code only
  compares and copies them, so no machine-width arithmetic is involved.
* A Go `map[string]int` is `GoMap`: `none` is the nil map, `some l` an allocated map
  whose entries are the association list `l` (at most one entry per key).
* A Go run-time panic is the `Outcome.panic` result; a normal return is `Outcome.ret`.
* A Go `error` is `Option String` (`none` is `nil`).
* The directory tree handed to `fastwalk.Walk` is a `Tree`; each directory node records
  what `utils.FileExists`, `config.Load` and `common.ParsePackage` answer for it.
* The walk is concurrent: the callback runs once per entry, an entry becomes available
  once the visit of its directory has returned `nil`, and the available entries are
  visited in an order the worker pool decides. Visits share nothing but the package
  list, which they append to under the mutex, so an execution is an interleaving of
  whole visits. `walkSched` runs the walk under an explicit schedule; `walk` and
  `walkList` are the depth-first schedule that visits entries in list order.
-/

namespace Autobuild

/-- Result of running a piece of Go code: a normal return or a run-time panic. -/
inductive Outcome (α : Type) where
  | ret (a : α)
  | panic (msg : String)
  deriving DecidableEq, Repr

/-- Modelled from the spec: the record type `common.Package`, declared outside
`source_state.go`. `Name`, `Version`, `Release` and `Provides` are the fields the source
reads; `Dependencies` and `Path` are the remaining fields of the spec's data model
(dependency names, filesystem path). -/
structure Package where
  Name : String
  Version : String
  Release : Int
  Provides : List String
  Dependencies : List String
  Path : String
  deriving DecidableEq, Repr

/-- Modelled from the spec: the record type `Diff`, declared outside `source_state.go`.
Its six fields are the ones named by the composite literals in `Changed`; a field a
literal leaves out has Go's zero value (`0`, the empty string). -/
structure Diff where
  Idx : Int := 0
  OldIdx : Int := 0
  RelNum : Int := 0
  OldRelNum : Int := 0
  Ver : String := ""
  OldVer : String := ""
  deriving DecidableEq, Repr

/-- A Go `map[string]int`: `none` is the nil map, `some l` an allocated map. -/
abbrev GoMap := Option (List (String × Int))

/-- Lookup in an association list: the value of the first entry with key `k`. -/
def entriesLookup (k : String) : List (String × Int) → Option Int
  | [] => none
  | (k1, v) :: rest => if k1 = k then some v else entriesLookup k rest

/-- The two-result map read `v, found := m[k]`; reading the nil map finds nothing. -/
def GoMap.lookup (m : GoMap) (k : String) : Option Int :=
  match m with
  | none => none
  | some l => entriesLookup k l

/-- The map write `m[k] = v`: it replaces the entry of `k`, and panics on the nil map. -/
def GoMap.assign (m : GoMap) (k : String) (v : Int) : Outcome GoMap :=
  match m with
  | none => Outcome.panic "assignment to entry in nil map"
  | some l => Outcome.ret (some ((k, v) :: l.filter (fun e => decide (e.1 ≠ k))))

/-- The slice read `s[i]` with a Go `int` index: `none` stands for the
index-out-of-range panic. -/
def sliceAt {α : Type} (s : List α) (i : Int) : Option α :=
  if i < 0 then none else s[i.toNat]?

/-- Modelled from the spec: the interface `State`, declared outside `source_state.go`,
seen through the two methods `Changed` calls on it: `Packages()` and `NameToSrcIdx()`. -/
structure State where
  Packages : List Package
  NameToSrcIdx : GoMap
  deriving DecidableEq, Repr

/-- The struct `SourceState`. The graph behind `depGraph` (a pointer, `none` when nil)
is kept as a vertex list and an edge list. -/
structure SourceState where
  packages : List Package := []
  nameToSrcIdx : GoMap := none
  depGraph : Option (List Int × List (Int × Int)) := none
  isGit : Bool := false
  deriving DecidableEq, Repr

/-- A `SourceState` used as a `State`: the accessors `Packages` and `NameToSrcIdx`. -/
def SourceState.toState (s : SourceState) : State :=
  { Packages := s.packages, NameToSrcIdx := s.nameToSrcIdx }

/-- The method `BuildGraph`: its whole body is `panic("Not Implmeneted!")`. -/
def SourceState.BuildGraph (_s : SourceState) : Outcome SourceState :=
  Outcome.panic "Not Implmeneted!"

/-- The body of the loop of `Changed` from position `idx` on, over the remaining
packages, with `res` the entries appended so far. -/
def ChangedLoop (old : State) : Nat → List Package → List Diff → Outcome (List Diff)
  | _, [], res => Outcome.ret res
  | idx, pkg :: rest, res =>
    match old.NameToSrcIdx.lookup pkg.Name with
    | none =>
      ChangedLoop old (idx + 1) rest
        (res ++ [{ Idx := (idx : Int), RelNum := pkg.Release, Ver := pkg.Version }])
    | some oldIdx =>
      match sliceAt old.Packages oldIdx with
      | none => Outcome.panic "index out of range"
      | some oldPkg =>
        if oldPkg.Release ≠ pkg.Release ∨ oldPkg.Version ≠ pkg.Version then
          ChangedLoop old (idx + 1) rest
            (res ++ [{ Idx := (idx : Int), OldIdx := oldIdx, RelNum := pkg.Release,
                       OldRelNum := oldPkg.Release, Ver := pkg.Version,
                       OldVer := pkg.Version }])
        else
          ChangedLoop old (idx + 1) rest res

/-- The method `Changed`: the diff of the snapshot `cur` against `old`. -/
def SourceState.Changed (cur : SourceState) (old : State) : Outcome (List Diff) :=
  ChangedLoop old 0 cur.packages []

/-- The hard-coded list `badPackages`. -/
def badPackages : List String := ["haskell-http-client-tls"]

/-- What a directory holds under the name `autobuild.yml`: nothing, a file
`config.Load` fails on, or a file that loads with the given `Ignore` field. -/
inductive CfgFile where
  | absent
  | loadError (msg : String)
  | loaded (Ignore : Bool)
  deriving DecidableEq, Repr

/-- What a directory holds under the name `package.yml`: nothing, a descriptor
`common.ParsePackage` fails on, or one that parses to the given package. -/
inductive PkgFile where
  | absent
  | parseError (msg : String)
  | parsed (pkg : Package)
  deriving DecidableEq, Repr

/-- A directory tree as the walk sees it: plain files, and directories with their base
name, their `autobuild.yml`, their `package.yml` and their entries. -/
inductive Tree where
  | file (name : String)
  | dir (name : String) (cfg : CfgFile) (pkg : PkgFile) (children : List Tree)
  deriving Repr

/-- What the walk callback returns: `nil`, `filepath.SkipDir`, or another error. -/
inductive Signal where
  | nil
  | skipDir
  | error (msg : String)
  deriving DecidableEq, Repr

/-- The callback `LoadSource` hands to the walk, run on one entry with the state the
callback closes over. -/
def visit (state : SourceState) : Tree → SourceState × Signal
  | Tree.file _ => (state, Signal.nil)
  | Tree.dir name cfg pkg _ =>
    if name ∈ badPackages then (state, Signal.nil)
    else
      match cfg with
      | CfgFile.loadError e =>
        (state, Signal.error ("LoadSource: failed to load autobuild config file: " ++ e))
      | CfgFile.loaded true => (state, Signal.skipDir)
      | _ =>
        match pkg with
        | PkgFile.absent => (state, Signal.nil)
        | PkgFile.parseError e => (state, Signal.error e)
        | PkgFile.parsed p =>
          ({ state with packages := state.packages ++ [p] }, Signal.skipDir)

mutual
/-- The walk of one entry: the callback runs first; `SkipDir` prunes the entry, an
error stops the walk, and `nil` on a directory descends into its entries. -/
def walk (state : SourceState) : Tree → SourceState × Option String
  | Tree.file name =>
    match visit state (Tree.file name) with
    | (st, Signal.error e) => (st, some e)
    | (st, _) => (st, none)
  | Tree.dir name cfg pkg children =>
    match visit state (Tree.dir name cfg pkg children) with
    | (st, Signal.error e) => (st, some e)
    | (st, Signal.skipDir) => (st, none)
    | (st, Signal.nil) => walkList st children
/-- The walk of the entries of a directory, in order, up to the first error. -/
def walkList (state : SourceState) : List Tree → SourceState × Option String
  | [] => (state, none)
  | t :: rest =>
    match walk state t with
    | (st, some e) => (st, some e)
    | (st, none) => walkList st rest
end

/-- The entries of a directory; a plain file has none. -/
def entries : Tree → List Tree
  | Tree.file _ => []
  | Tree.dir _ _ _ children => children

/-- The call `fastwalk.Walk` under a schedule, from the state `state` with the entries
`pending` available to the workers. Each number `k` of the schedule picks the pending
entry at position `k` modulo the number of pending entries; the callback runs on it;
an error ends the walk with that error, `SkipDir` drops the entry, and `nil` makes its
entries available. When nothing is pending the walk ends without error. Once the
schedule is used up the remaining entries are walked depth-first in list order. -/
def walkSched : List Nat → SourceState → List Tree → SourceState × Option String
  | [], state, pending => walkList state pending
  | k :: ks, state, pending =>
    match pending[k % pending.length]? with
    | none => (state, none)
    | some t =>
      match visit state t with
      | (st, Signal.error e) => (st, some e)
      | (st, Signal.skipDir) => walkSched ks st (pending.eraseIdx (k % pending.length))
      | (st, Signal.nil) =>
        walkSched ks st (pending.eraseIdx (k % pending.length) ++ entries t)

/-- The inner loop of pass 1: `state.nameToSrcIdx[name] = idx` for each provided name. -/
def indexProvides (idx : Nat) : GoMap → List String → Outcome GoMap
  | m, [] => Outcome.ret m
  | m, name :: rest =>
    match m.assign name (idx : Int) with
    | Outcome.panic msg => Outcome.panic msg
    | Outcome.ret m1 => indexProvides idx m1 rest

/-- Pass 1 of `LoadSource` from position `idx` on: each package registers its name and
then its provided names. -/
def indexLoop : Nat → GoMap → List Package → Outcome GoMap
  | _, m, [] => Outcome.ret m
  | idx, m, pkg :: rest =>
    match m.assign pkg.Name (idx : Int) with
    | Outcome.panic msg => Outcome.panic msg
    | Outcome.ret m1 =>
      match indexProvides idx m1 pkg.Provides with
      | Outcome.panic msg => Outcome.panic msg
      | Outcome.ret m2 => indexLoop (idx + 1) m2 rest

/-- The function `LoadSource` on the tree found under its path argument, with the walk
running under the schedule `sched`. `Resolve` is the method `common.Package.Resolve`,
declared outside `source_state.go`: it is a parameter. The named result `state` starts
as the zero value, so its name index is the nil map; the result pairs the returned
state with the returned error. -/
def LoadSource (Resolve : Package → GoMap → Package) (sched : List Nat) (root : Tree) :
    Outcome (SourceState × Option String) :=
  match walkSched sched {} [root] with
  | (state, some e) => Outcome.ret (state, some e)
  | (state, none) =>
    match indexLoop 0 state.nameToSrcIdx state.packages with
    | Outcome.panic msg => Outcome.panic msg
    | Outcome.ret m =>
      Outcome.ret
        ({ state with
            nameToSrcIdx := m,
            packages := state.packages.map (fun p => Resolve p m) }, none)

/-! ## Proof devices for the differ -/

/-- The entry, if any, that one iteration of the loop of `Changed` appends for the
package `pkg` at position `idx`, when the iteration does not panic. -/
def emit (old : State) (idx : Nat) (pkg : Package) : Option Diff :=
  match old.NameToSrcIdx.lookup pkg.Name with
  | none => some { Idx := (idx : Int), RelNum := pkg.Release, Ver := pkg.Version }
  | some oldIdx =>
    match sliceAt old.Packages oldIdx with
    | none => none
    | some oldPkg =>
      if oldPkg.Release ≠ pkg.Release ∨ oldPkg.Version ≠ pkg.Version then
        some { Idx := (idx : Int), OldIdx := oldIdx, RelNum := pkg.Release,
               OldRelNum := oldPkg.Release, Ver := pkg.Version, OldVer := pkg.Version }
      else none

/-- The entries of all iterations from position `idx` on, in order. -/
def emits (old : State) : Nat → List Package → List Diff
  | _, [] => []
  | idx, pkg :: rest => (emit old idx pkg).toList ++ emits old (idx + 1) rest

/-- Every value of the name index of `old` is a position of its package list. -/
def IndexValid (old : State) : Prop :=
  ∀ name j, old.NameToSrcIdx.lookup name = some j → 0 ≤ j ∧ j < (old.Packages.length : Int)

/-- The package `p` claims the name `n`: as its real name or as a provided name. -/
def Claims (p : Package) (n : String) : Prop :=
  n = p.Name ∨ n ∈ p.Provides

/-! ## Proof devices for the walk -/

mutual
/-- The entries the depth-first walk of one entry visits, in order. -/
def walkVisits (state : SourceState) : Tree → List Tree
  | Tree.file name => [Tree.file name]
  | Tree.dir name cfg pkg children =>
    Tree.dir name cfg pkg children ::
      (match visit state (Tree.dir name cfg pkg children) with
       | (st, Signal.nil) => walkListVisits st children
       | _ => [])
/-- The entries the depth-first walk of a list of entries visits, in order. -/
def walkListVisits (state : SourceState) : List Tree → List Tree
  | [] => []
  | t :: rest =>
    walkVisits state t ++
      (match walk state t with
       | (st, none) => walkListVisits st rest
       | _ => [])
end

/-- The entries the walk under a schedule visits, in the order of the visits. -/
def visits : List Nat → SourceState → List Tree → List Tree
  | [], state, pending => walkListVisits state pending
  | k :: ks, state, pending =>
    match pending[k % pending.length]? with
    | none => []
    | some t =>
      t ::
        (match visit state t with
         | (_, Signal.error _) => []
         | (st, Signal.skipDir) => visits ks st (pending.eraseIdx (k % pending.length))
         | (st, Signal.nil) =>
           visits ks st (pending.eraseIdx (k % pending.length) ++ entries t))

/-- The visit of an entry fails with the error `e`: the entry is a directory that is
not on the deny-list and either `config.Load` of its existing `autobuild.yml` returns
an error, which the callback wraps into `e`, or its `autobuild.yml` is absent or loads
without marking it ignored and `common.ParsePackage` of the directory, which holds a
`package.yml`, returns the error `e`. -/
inductive VisitFails : Tree → String → Prop where
  | load (name : String) (msg : String) (pkg : PkgFile) (children : List Tree) :
      name ∉ badPackages →
      VisitFails (Tree.dir name (CfgFile.loadError msg) pkg children)
        ("LoadSource: failed to load autobuild config file: " ++ msg)
  | parse (name : String) (cfg : CfgFile) (e : String) (children : List Tree) :
      name ∉ badPackages → (cfg = CfgFile.absent ∨ cfg = CfgFile.loaded false) →
      VisitFails (Tree.dir name cfg (PkgFile.parseError e) children) e

/-- The package an entry contributes when it is visited: the parsed descriptor of a
directory that is not on the deny-list and whose `autobuild.yml` is absent or loads
without marking it ignored. -/
def discovered : Tree → Option Package
  | Tree.dir name CfgFile.absent (PkgFile.parsed p) _ =>
    if name ∈ badPackages then none else some p
  | Tree.dir name (CfgFile.loaded false) (PkgFile.parsed p) _ =>
    if name ∈ badPackages then none else some p
  | _ => none

/-- A package record with the given name, version, release and provided names. -/
def mkPackage (name ver : String) (rel : Int) (provides : List String) : Package :=
  { Name := name, Version := ver, Release := rel, Provides := provides,
    Dependencies := [], Path := name }

/-- A previous snapshot: `X` at version 1.0 release 1, and `Z`. -/
def oldSample : State :=
  { Packages := [mkPackage "X" "1.0" 1 [], mkPackage "Z" "3.1" 4 []],
    NameToSrcIdx := some [("X", 0), ("Z", 1)] }

/-- A current snapshot: `X` now at version 2.0 release 2, a new `Y`, and `Z` unchanged. -/
def curSample : SourceState :=
  { packages := [mkPackage "X" "2.0" 2 [], mkPackage "Y" "0.1" 1 [], mkPackage "Z" "3.1" 4 []],
    nameToSrcIdx := some [("X", 0), ("Y", 1), ("Z", 2)] }

/-- The diff of `curSample` against `oldSample`: an entry for `X` and one for `Y`. -/
def sampleDiff : List Diff :=
  [{ Idx := 0, OldIdx := 0, RelNum := 2, OldRelNum := 1, Ver := "2.0", OldVer := "2.0" },
   { Idx := 1, OldIdx := 0, RelNum := 1, OldRelNum := 0, Ver := "0.1", OldVer := "" }]

/-- Two packages that both carry the name `X`. -/
def dupSample : List Package :=
  [mkPackage "X" "1.0" 1 [], mkPackage "X" "2.0" 1 []]

/-- A package named `X` followed by a package `Y` that provides `X`. -/
def collisionSample : List Package :=
  [mkPackage "X" "1.0" 1 [], mkPackage "Y" "0.1" 1 ["X"]]

/-- Two packages with distinct names and distinct provided names. -/
def distinctSample : List Package :=
  [mkPackage "X" "1.0" 1 ["libx"], mkPackage "Y" "0.1" 1 ["liby", "y-devel"]]

/-- A directory `pkgs` holding the package directory `a` (its descriptor parses) and
then the package directory `b` (its descriptor does not parse). -/
def failingTree : Tree :=
  Tree.dir "pkgs" CfgFile.absent PkgFile.absent
    [Tree.dir "a" CfgFile.absent (PkgFile.parsed (mkPackage "a" "1.0" 1 []))
       [Tree.file "package.yml"],
     Tree.dir "b" CfgFile.absent (PkgFile.parseError "yaml: line 1: did not find expected key")
       [Tree.file "package.yml"]]

/-- A directory `pkgs` holding the package directory `c` and the directory `d`, which
holds the package directory `a` and the package directory `b` with a descriptor that
does not parse. -/
def nestedFailingTree : Tree :=
  Tree.dir "pkgs" CfgFile.absent PkgFile.absent
    [Tree.dir "c" CfgFile.absent (PkgFile.parsed (mkPackage "c" "2.0" 3 [])) [],
     Tree.dir "d" CfgFile.absent PkgFile.absent
       [Tree.dir "a" (CfgFile.loaded false) (PkgFile.parsed (mkPackage "a" "1.0" 1 [])) [],
        Tree.dir "b" CfgFile.absent (PkgFile.parseError "yaml: mapping values") []]]

/-- A directory `pkgs` holding the single package directory `a`. -/
def onePackageTree : Tree :=
  Tree.dir "pkgs" CfgFile.absent PkgFile.absent
    [Tree.dir "a" CfgFile.absent (PkgFile.parsed (mkPackage "a" "1.0" 1 []))
       [Tree.file "package.yml"]]

/-- A directory with a deny-listed name, marked ignored by its `autobuild.yml`, with a
package directory `sub` below it. -/
def denyListedIgnoredTree : Tree :=
  Tree.dir "haskell-http-client-tls" (CfgFile.loaded true) PkgFile.absent
    [Tree.file "autobuild.yml",
     Tree.dir "sub" CfgFile.absent (PkgFile.parsed (mkPackage "sub" "1.0" 1 []))
       [Tree.file "package.yml"]]

/-- A directory `old`, marked ignored by its `autobuild.yml`, that holds a descriptor
and a package directory `sub` below it. -/
def ignoredTree : Tree :=
  Tree.dir "old" (CfgFile.loaded true) (PkgFile.parsed (mkPackage "old" "1.0" 1 []))
    [Tree.file "autobuild.yml", Tree.file "package.yml",
     Tree.dir "sub" CfgFile.absent (PkgFile.parsed (mkPackage "sub" "1.0" 1 []))
       [Tree.file "package.yml"]]

theorem sliceAt_ofNat {α : Type} (s : List α) (i : Nat) : sliceAt s (i : Int) = s[i]? := by
  unfold sliceAt
  have h : ¬ ((i : Int) < 0) := by omega
  simp [h]

theorem sliceAt_isSome {α : Type} (s : List α) (j : Int) (h0 : 0 ≤ j)
    (h1 : j < (s.length : Int)) : ∃ a, sliceAt s j = some a := by
  obtain ⟨n, rfl⟩ := Int.eq_ofNat_of_zero_le h0
  rw [sliceAt_ofNat]
  have hn : n < s.length := by omega
  exact ⟨s[n], by simp [hn]⟩

/-- When the loop returns, it has appended exactly the entries of `emits`. -/
theorem ChangedLoop_ret (old : State) (pkgs : List Package) :
    ∀ (idx : Nat) (res out : List Diff),
      ChangedLoop old idx pkgs res = Outcome.ret out → out = res ++ emits old idx pkgs := by
  induction pkgs with
  | nil =>
    intro idx res out h
    simp only [ChangedLoop, Outcome.ret.injEq] at h
    simp [emits, h]
  | cons pkg rest ih =>
    intro idx res out h
    unfold ChangedLoop at h
    unfold emits emit
    cases hl : old.NameToSrcIdx.lookup pkg.Name with
    | none =>
      simp only [hl] at h ⊢
      rw [ih _ _ _ h]
      simp
    | some oldIdx =>
      simp only [hl] at h ⊢
      cases hs : sliceAt old.Packages oldIdx with
      | none => simp [hs] at h
      | some oldPkg =>
        simp only [hs] at h ⊢
        by_cases hc : oldPkg.Release ≠ pkg.Release ∨ oldPkg.Version ≠ pkg.Version
        · rw [if_pos hc] at h ⊢
          rw [ih _ _ _ h]
          simp
        · rw [if_neg hc] at h ⊢
          rw [ih _ _ _ h]
          simp

/-- With a valid name index in `old` the loop never panics. -/
theorem ChangedLoop_total (old : State) (hv : IndexValid old) (pkgs : List Package) :
    ∀ (idx : Nat) (res : List Diff),
      ChangedLoop old idx pkgs res = Outcome.ret (res ++ emits old idx pkgs) := by
  induction pkgs with
  | nil => intro idx res; simp [ChangedLoop, emits]
  | cons pkg rest ih =>
    intro idx res
    unfold ChangedLoop emits emit
    cases hl : old.NameToSrcIdx.lookup pkg.Name with
    | none =>
      simp only [hl]
      rw [ih]
      simp
    | some oldIdx =>
      simp only [hl]
      obtain ⟨oldPkg, hs⟩ := sliceAt_isSome old.Packages oldIdx (hv _ _ hl).1 (hv _ _ hl).2
      simp only [hs]
      by_cases hc : oldPkg.Release ≠ pkg.Release ∨ oldPkg.Version ≠ pkg.Version
      · rw [if_pos hc, if_pos hc, ih]
        simp
      · rw [if_neg hc, if_neg hc, ih]
        simp

/-- An entry of `emits` is the entry of one position of the list. -/
theorem mem_emits (old : State) (pkgs : List Package) :
    ∀ (idx : Nat) (d : Diff),
      d ∈ emits old idx pkgs ↔ ∃ i pkg, pkgs[i]? = some pkg ∧ emit old (idx + i) pkg = some d := by
  induction pkgs with
  | nil => intro idx d; simp [emits]
  | cons p rest ih =>
    intro idx d
    simp only [emits, List.mem_append, Option.mem_toList, Option.mem_def, ih]
    constructor
    · rintro (h | ⟨i, pkg, hp, he⟩)
      · exact ⟨0, p, by simp, by simpa using h⟩
      · exact ⟨i + 1, pkg, by simpa using hp, by rw [← he]; congr 1; omega⟩
    · rintro ⟨i, pkg, hp, he⟩
      cases i with
      | zero =>
        left
        simp only [List.getElem?_cons_zero, Option.some.injEq] at hp
        subst hp
        simpa using he
      | succ i =>
        right
        exact ⟨i, pkg, by simpa using hp, by rw [← he]; congr 1; omega⟩

/-- The entry of a position carries that position in `Idx`. -/
theorem emit_Idx (old : State) (idx : Nat) (pkg : Package) (d : Diff)
    (h : emit old idx pkg = some d) : d.Idx = (idx : Int) := by
  unfold emit at h
  split at h
  · simp only [Option.some.injEq] at h
    rw [← h]
  · split at h
    · simp at h
    · split at h
      · simp only [Option.some.injEq] at h
        rw [← h]
      · simp at h

/-- The `Idx` fields of `emits` are strictly ascending. -/
theorem emits_sorted (old : State) (pkgs : List Package) :
    ∀ idx : Nat, ((emits old idx pkgs).map Diff.Idx).Pairwise (fun a b => a < b) := by
  induction pkgs with
  | nil => intro idx; simp [emits]
  | cons p rest ih =>
    intro idx
    simp only [emits, List.map_append]
    rw [List.pairwise_append]
    refine ⟨?_, ih (idx + 1), ?_⟩
    · cases he : emit old idx p <;> simp
    · intro a ha b hb
      simp only [List.mem_map, Option.mem_toList, Option.mem_def] at ha hb
      obtain ⟨d, hd, rfl⟩ := ha
      obtain ⟨d2, hd2, rfl⟩ := hb
      rw [mem_emits] at hd2
      obtain ⟨i, pkg, _, he⟩ := hd2
      rw [emit_Idx old idx p d hd, emit_Idx old _ pkg d2 he]
      push_cast
      omega

/-- A snapshot whose index sends each name to its own position diffs to nothing. -/
theorem ChangedLoop_self (old : State) (pkgs : List Package) :
    ∀ (idx : Nat) (res : List Diff),
      (∀ i pkg, pkgs[i]? = some pkg →
        old.NameToSrcIdx.lookup pkg.Name = some ((idx + i : Nat) : Int) ∧
        old.Packages[idx + i]? = some pkg) →
      ChangedLoop old idx pkgs res = Outcome.ret res := by
  induction pkgs with
  | nil => intro idx res _; simp [ChangedLoop]
  | cons p rest ih =>
    intro idx res h
    obtain ⟨hl, hp⟩ := h 0 p (by simp)
    unfold ChangedLoop
    simp only [hl, sliceAt_ofNat, hp]
    have hc : ¬ (p.Release ≠ p.Release ∨ p.Version ≠ p.Version) := by simp
    rw [if_neg hc]
    apply ih
    intro i pkg hi
    have h2 := h (i + 1) pkg (by simpa using hi)
    have e : idx + (i + 1) = idx + 1 + i := by omega
    rw [e] at h2
    exact h2

/-! ## The snapshot differ -/

/-- C1 (the code departs from the claim): with `X` at version 1.0 release 1 in the
previous snapshot and at version 2.0 release 2 in the current one, the entry `Changed`
emits for `X` has both positions, the new version and both releases, but its `OldVer`
is the current version 2.0, not the version 1.0 of the package at `OldIdx` in the
previous snapshot. -/
theorem Changed_OldVer_current_version :
    curSample.Changed oldSample =
      Outcome.ret
        [{ Idx := 0, OldIdx := 0, RelNum := 2, OldRelNum := 1, Ver := "2.0", OldVer := "2.0" },
         { Idx := 1, OldIdx := 0, RelNum := 1, OldRelNum := 0, Ver := "0.1", OldVer := "" }] ∧
    oldSample.NameToSrcIdx.lookup "X" = some 0 ∧
    (sliceAt oldSample.Packages 0).map Package.Version = some "1.0" := by
  decide

/-- C2: when every value of the name index of `old` is a position of its package list,
`Changed cur old` returns, the `Idx` fields of its entries are strictly ascending, and
they are exactly the positions of `cur` whose package has a name absent from the index
of `old`, or present with the package it maps to differing in version or release. -/
theorem Changed_Idx_positions (cur : SourceState) (old : State) (hv : IndexValid old) :
    ∃ res, cur.Changed old = Outcome.ret res ∧
      (res.map Diff.Idx).Pairwise (fun a b => a < b) ∧
      ∀ z : Int, z ∈ res.map Diff.Idx ↔
        ∃ (i : Nat) (pkg : Package), z = (i : Int) ∧ cur.packages[i]? = some pkg ∧
          (old.NameToSrcIdx.lookup pkg.Name = none ∨
            ∃ j oldPkg, old.NameToSrcIdx.lookup pkg.Name = some j ∧
              sliceAt old.Packages j = some oldPkg ∧
              (oldPkg.Version ≠ pkg.Version ∨ oldPkg.Release ≠ pkg.Release)) := by
  refine ⟨emits old 0 cur.packages, ?_, emits_sorted old cur.packages 0, ?_⟩
  · have h := ChangedLoop_total old hv cur.packages 0 []
    simpa [SourceState.Changed] using h
  · intro z
    simp only [List.mem_map, mem_emits, Nat.zero_add]
    constructor
    · rintro ⟨d, ⟨i, pkg, hp, he⟩, rfl⟩
      refine ⟨i, pkg, emit_Idx old i pkg d he, hp, ?_⟩
      unfold emit at he
      cases hl : old.NameToSrcIdx.lookup pkg.Name with
      | none => exact Or.inl rfl
      | some j =>
        right
        simp only [hl] at he
        cases hs : sliceAt old.Packages j with
        | none => simp [hs] at he
        | some oldPkg =>
          simp only [hs] at he
          by_cases hc : oldPkg.Release ≠ pkg.Release ∨ oldPkg.Version ≠ pkg.Version
          · exact ⟨j, oldPkg, rfl, hs, hc.symm⟩
          · rw [if_neg hc] at he
            simp at he
    · rintro ⟨i, pkg, rfl, hp, hcase⟩
      rcases hcase with hl | ⟨j, oldPkg, hl, hs, hc⟩
      · refine ⟨{ Idx := (i : Int), RelNum := pkg.Release, Ver := pkg.Version },
          ⟨i, pkg, hp, ?_⟩, rfl⟩
        simp [emit, hl]
      · refine ⟨{ Idx := (i : Int), OldIdx := j, RelNum := pkg.Release,
                  OldRelNum := oldPkg.Release, Ver := pkg.Version, OldVer := pkg.Version },
          ⟨i, pkg, hp, ?_⟩, rfl⟩
        simp only [emit, hl, hs]
        rw [if_pos hc.symm]

/-- The name index of `oldSample` holds positions of its package list only. -/
theorem oldSample_valid : IndexValid oldSample := by
  intro name j h
  simp only [oldSample, GoMap.lookup, entriesLookup] at h
  split at h
  · simp only [Option.some.injEq] at h
    subst h
    decide
  · split at h
    · simp only [Option.some.injEq] at h
      subst h
      decide
    · simp at h

/-- Witness for C2 on the sample snapshots. -/
theorem Changed_Idx_positions_witness :
    ∃ res, curSample.Changed oldSample = Outcome.ret res ∧
      (res.map Diff.Idx).Pairwise (fun a b => a < b) ∧
      ∀ z : Int, z ∈ res.map Diff.Idx ↔
        ∃ (i : Nat) (pkg : Package), z = (i : Int) ∧ curSample.packages[i]? = some pkg ∧
          (oldSample.NameToSrcIdx.lookup pkg.Name = none ∨
            ∃ j oldPkg, oldSample.NameToSrcIdx.lookup pkg.Name = some j ∧
              sliceAt oldSample.Packages j = some oldPkg ∧
              (oldPkg.Version ≠ pkg.Version ∨ oldPkg.Release ≠ pkg.Release)) :=
  Changed_Idx_positions curSample oldSample oldSample_valid

/-- C6: a snapshot whose name index maps the name of each package to the position of
that package diffs to nothing against itself: `Changed s s` returns the empty sequence. -/
theorem Changed_self_empty (s : SourceState)
    (hidx : ∀ (i : Nat) (pkg : Package), s.packages[i]? = some pkg →
      s.nameToSrcIdx.lookup pkg.Name = some (i : Int)) :
    s.Changed s.toState = Outcome.ret [] := by
  unfold SourceState.Changed
  apply ChangedLoop_self
  intro i pkg hp
  simp only [Nat.zero_add]
  exact ⟨hidx i pkg hp, hp⟩

/-- Witness for C6 on the sample current snapshot. -/
theorem Changed_self_empty_witness :
    (∀ (i : Nat) (pkg : Package), curSample.packages[i]? = some pkg →
      curSample.nameToSrcIdx.lookup pkg.Name = some (i : Int)) ∧
    curSample.Changed curSample.toState = Outcome.ret [] := by
  have h : ∀ (i : Nat) (pkg : Package), curSample.packages[i]? = some pkg →
      curSample.nameToSrcIdx.lookup pkg.Name = some (i : Int) := by
    intro i pkg hp
    match i, hp with
    | 0, hp => simp [curSample] at hp; subst hp; decide
    | 1, hp => simp [curSample] at hp; subst hp; decide
    | 2, hp => simp [curSample] at hp; subst hp; decide
    | n + 3, hp => simp [curSample] at hp
  exact ⟨h, Changed_self_empty curSample h⟩

/-- C7: when `Changed cur old` returns `res`, a package at position `i` of `cur` whose
name is not in the name index of `old` has an entry in `res`, and every entry of `res`
with `Idx = i` is that entry: `Idx` is `i`, `Ver` and `RelNum` are the version and
release of the package, and `OldIdx = 0`, `OldRelNum = 0`, `OldVer` is empty. -/
theorem Changed_new_entry (cur : SourceState) (old : State) (res : List Diff)
    (hret : cur.Changed old = Outcome.ret res) (i : Nat) (pkg : Package)
    (hp : cur.packages[i]? = some pkg) (hnew : old.NameToSrcIdx.lookup pkg.Name = none) :
    ({ Idx := (i : Int), OldIdx := 0, RelNum := pkg.Release, OldRelNum := 0,
       Ver := pkg.Version, OldVer := "" } : Diff) ∈ res ∧
    ∀ d ∈ res, d.Idx = (i : Int) →
      d = { Idx := (i : Int), OldIdx := 0, RelNum := pkg.Release, OldRelNum := 0,
            Ver := pkg.Version, OldVer := "" } := by
  have hres := ChangedLoop_ret old cur.packages 0 [] res hret
  simp only [List.nil_append] at hres
  subst hres
  have hemit : emit old i pkg =
      some { Idx := (i : Int), OldIdx := 0, RelNum := pkg.Release, OldRelNum := 0,
             Ver := pkg.Version, OldVer := "" } := by
    simp [emit, hnew]
  constructor
  · rw [mem_emits]
    exact ⟨i, pkg, hp, by simpa using hemit⟩
  · intro d hd hi
    rw [mem_emits] at hd
    obtain ⟨k, q, hq, he⟩ := hd
    simp only [Nat.zero_add] at he
    have hk := emit_Idx old k q d he
    rw [hi] at hk
    have hki : k = i := by omega
    subst hki
    rw [hp] at hq
    simp only [Option.some.injEq] at hq
    subst hq
    rw [hemit] at he
    simp only [Option.some.injEq] at he
    exact he.symm

/-- Witness for C7: the package `Y` at position 1 of the sample current snapshot. -/
theorem Changed_new_entry_witness :
    curSample.Changed oldSample = Outcome.ret sampleDiff ∧
    curSample.packages[1]? = some (mkPackage "Y" "0.1" 1 []) ∧
    oldSample.NameToSrcIdx.lookup (mkPackage "Y" "0.1" 1 []).Name = none ∧
    (({ Idx := ((1 : Nat) : Int), OldIdx := 0, RelNum := 1, OldRelNum := 0,
        Ver := "0.1", OldVer := "" } : Diff) ∈ sampleDiff ∧
     ∀ d ∈ sampleDiff, d.Idx = ((1 : Nat) : Int) →
       d = { Idx := ((1 : Nat) : Int), OldIdx := 0, RelNum := 1, OldRelNum := 0,
             Ver := "0.1", OldVer := "" }) :=
  ⟨by decide, by decide, by decide,
   Changed_new_entry curSample oldSample sampleDiff (by decide) 1
     (mkPackage "Y" "0.1" 1 []) (by decide) (by decide)⟩

/-! ## Pass 1: the name index -/

theorem entriesLookup_filter_ne (k k2 : String) (h : k2 ≠ k) (l : List (String × Int)) :
    entriesLookup k2 (l.filter (fun e => decide (e.1 ≠ k))) = entriesLookup k2 l := by
  induction l with
  | nil => rfl
  | cons a rest ih =>
    obtain ⟨a1, v⟩ := a
    by_cases ha : a1 = k
    · have hne : ¬ a1 = k2 := by rw [ha]; exact fun e => h e.symm
      have hf : List.filter (fun e => decide (e.1 ≠ k)) ((a1, v) :: rest) =
          List.filter (fun e => decide (e.1 ≠ k)) rest := by
        apply List.filter_cons_of_neg
        simp [ha]
      rw [hf, ih]
      simp only [entriesLookup, if_neg hne]
    · have hf : List.filter (fun e => decide (e.1 ≠ k)) ((a1, v) :: rest) =
          (a1, v) :: List.filter (fun e => decide (e.1 ≠ k)) rest := by
        apply List.filter_cons_of_pos
        simp [ha]
      rw [hf]
      simp only [entriesLookup, ih]

/-- A write to an allocated map returns; afterwards the key reads the written value
and every other key reads as before. -/
theorem assign_lookup (l : List (String × Int)) (k : String) (v : Int) :
    ∃ l2, GoMap.assign (some l) k v = Outcome.ret (some l2) ∧
      ∀ n, GoMap.lookup (some l2) n = if n = k then some v else GoMap.lookup (some l) n := by
  refine ⟨_, rfl, ?_⟩
  intro n
  by_cases hn : n = k
  · simp [GoMap.lookup, entriesLookup, hn]
  · have hkn : ¬ k = n := fun e => hn e.symm
    simp only [GoMap.lookup, entriesLookup, if_neg hkn, if_neg hn]
    exact entriesLookup_filter_ne k n hn l

theorem indexProvides_lookup (idx : Nat) (names : List String) :
    ∀ l : List (String × Int), ∃ l2,
      indexProvides idx (some l) names = Outcome.ret (some l2) ∧
      ∀ n, GoMap.lookup (some l2) n =
        if n ∈ names then some (idx : Int) else GoMap.lookup (some l) n := by
  induction names with
  | nil => intro l; exact ⟨l, rfl, by simp⟩
  | cons name rest ih =>
    intro l
    obtain ⟨l1, h1, hl1⟩ := assign_lookup l name (idx : Int)
    obtain ⟨l2, h2, hl2⟩ := ih l1
    refine ⟨l2, ?_, ?_⟩
    · simp only [indexProvides, h1, h2]
    · intro n
      rw [hl2, hl1]
      by_cases hr : n ∈ rest
      · simp [hr]
      · by_cases hn : n = name
        · simp [hn]
        · simp [hr, hn]

/-- One iteration of pass 1 on an allocated map: the names the package claims read its
position afterwards, every other name reads as before. -/
theorem indexStep_lookup (idx : Nat) (p : Package) (l : List (String × Int)) :
    ∃ l2, (∃ l1, GoMap.assign (some l) p.Name (idx : Int) = Outcome.ret (some l1) ∧
        indexProvides idx (some l1) p.Provides = Outcome.ret (some l2)) ∧
      ∀ n, (Claims p n → GoMap.lookup (some l2) n = some (idx : Int)) ∧
        (¬ Claims p n → GoMap.lookup (some l2) n = GoMap.lookup (some l) n) := by
  obtain ⟨l1, h1, hl1⟩ := assign_lookup l p.Name (idx : Int)
  obtain ⟨l2, h2, hl2⟩ := indexProvides_lookup idx p.Provides l1
  refine ⟨l2, ⟨l1, h1, h2⟩, ?_⟩
  intro n
  rw [hl2, hl1]
  unfold Claims
  by_cases hr : n ∈ p.Provides
  · simp [hr]
  · by_cases hn : n = p.Name
    · simp [hn]
    · simp [hr, hn]

/-- Pass 1 on an allocated map returns; a claimed name reads the last position that
claims it, and a name nobody claims reads as before. -/
theorem indexLoop_last_writer (pkgs : List Package) :
    ∀ (idx : Nat) (l : List (String × Int)), ∃ l2,
      indexLoop idx (some l) pkgs = Outcome.ret (some l2) ∧
      ∀ n,
        (∀ (i : Nat) (p : Package), pkgs[i]? = some p → Claims p n →
          (∀ (j : Nat) (q : Package), i < j → pkgs[j]? = some q → ¬ Claims q n) →
          GoMap.lookup (some l2) n = some ((idx + i : Nat) : Int)) ∧
        ((∀ (i : Nat) (p : Package), pkgs[i]? = some p → ¬ Claims p n) →
          GoMap.lookup (some l2) n = GoMap.lookup (some l) n) := by
  induction pkgs with
  | nil =>
    intro idx l
    refine ⟨l, rfl, ?_⟩
    intro n
    exact ⟨fun i p hp => by simp at hp, fun _ => rfl⟩
  | cons p rest ih =>
    intro idx l
    obtain ⟨l2, ⟨l1, h1, h2⟩, hstep⟩ := indexStep_lookup idx p l
    obtain ⟨l3, h3, hrest⟩ := ih (idx + 1) l2
    refine ⟨l3, ?_, ?_⟩
    · simp only [indexLoop, h1, h2, h3]
    · intro n
      obtain ⟨hlast, hnone⟩ := hrest n
      constructor
      · intro i q hq hc hlater
        cases i with
        | zero =>
          simp only [List.getElem?_cons_zero, Option.some.injEq] at hq
          subst hq
          rw [hnone, (hstep n).1 hc]
          · simp
          · intro j r hr
            exact hlater (j + 1) r (by omega) (by simpa using hr)
        | succ i =>
          have := hlast i q (by simpa using hq) hc
            (fun j r hij hr => hlater (j + 1) r (by omega) (by simpa using hr))
          rw [this]
          congr 2
          omega
      · intro hno
        rw [hnone (fun i q hq => hno (i + 1) q (by simpa using hq))]
        exact (hstep n).2 (hno 0 p (by simp))

/-- C3 (counterexample): on two packages that are both named `X`, pass 1 run from an
empty map ends with `X` mapped to position 1, although the package at position 0 is
named `X` as well. -/
theorem indexLoop_duplicate_name_last_wins :
    indexLoop 0 (some []) dupSample = Outcome.ret (some [("X", 1)]) ∧
    dupSample[0]? = some (mkPackage "X" "1.0" 1 []) ∧
    GoMap.lookup (some [("X", 1)]) (mkPackage "X" "1.0" 1 []).Name ≠ some 0 := by
  decide

/-- C3 (amended): for every package list in which no name is claimed at two distinct
positions, pass 1 run from an empty map returns a name index in which the name of the
package at position `i` reads `i` and every name it provides reads `i`. -/
theorem indexLoop_own_position (pkgs : List Package)
    (huniq : ∀ (i j : Nat) (p q : Package) (n : String), pkgs[i]? = some p →
      pkgs[j]? = some q → Claims p n → Claims q n → i = j) :
    ∃ m : GoMap, indexLoop 0 (some []) pkgs = Outcome.ret m ∧
      ∀ (i : Nat) (p : Package), pkgs[i]? = some p →
        m.lookup p.Name = some (i : Int) ∧ ∀ v ∈ p.Provides, m.lookup v = some (i : Int) := by
  obtain ⟨l2, h, hspec⟩ := indexLoop_last_writer pkgs 0 []
  refine ⟨some l2, h, ?_⟩
  intro i p hp
  have key : ∀ n, Claims p n → GoMap.lookup (some l2) n = some (i : Int) := by
    intro n hc
    have := (hspec n).1 i p hp hc (fun j q hij hq hcq => by
      have := huniq i j p q n hp hq hc hcq
      omega)
    simpa using this
  exact ⟨key _ (Or.inl rfl), fun v hv => key v (Or.inr hv)⟩

/-- No name is claimed at two positions of `distinctSample`. -/
theorem distinctSample_unique : ∀ (i j : Nat) (p q : Package) (n : String),
    distinctSample[i]? = some p → distinctSample[j]? = some q →
    Claims p n → Claims q n → i = j := by
  intro i j p q n hp hq hcp hcq
  unfold Claims at hcp hcq
  match i, j, hp, hq with
  | 0, 0, _, _ => rfl
  | 1, 1, _, _ => rfl
  | 0, 1, hp, hq =>
    simp [distinctSample, mkPackage] at hp hq
    subst hp; subst hq
    simp at hcp hcq
    rcases hcp with h | h <;> rcases hcq with h2 | h2 | h2 <;> rw [h] at h2 <;> simp at h2
  | 1, 0, hp, hq =>
    simp [distinctSample, mkPackage] at hp hq
    subst hp; subst hq
    simp at hcp hcq
    rcases hcq with h | h <;> rcases hcp with h2 | h2 | h2 <;> rw [h] at h2 <;> simp at h2
  | n + 2, _, hp, _ => simp [distinctSample] at hp
  | _, n + 2, _, hq => simp [distinctSample] at hq

/-- Witness for C3 (amended) on `distinctSample`. -/
theorem indexLoop_own_position_witness :
    ∃ m : GoMap, indexLoop 0 (some []) distinctSample = Outcome.ret m ∧
      ∀ (i : Nat) (p : Package), distinctSample[i]? = some p →
        m.lookup p.Name = some (i : Int) ∧ ∀ v ∈ p.Provides, m.lookup v = some (i : Int) :=
  indexLoop_own_position distinctSample distinctSample_unique

/-- C4 (counterexample): `X` is the name of the package at position 0 and a provided
name of the package at position 1. Pass 1 run from an empty map returns normally with
`X` mapped to position 1: the entry of position 0 is overwritten and nothing is
reported. Run from the nil map it stops at the first write, exactly as it does on the
first package alone, where nothing collides. -/
theorem indexLoop_collision_silently_overwrites :
    Claims (mkPackage "X" "1.0" 1 []) "X" ∧ Claims (mkPackage "Y" "0.1" 1 ["X"]) "X" ∧
    indexLoop 0 (some []) collisionSample = Outcome.ret (some [("X", 1), ("Y", 1)]) ∧
    indexLoop 0 none collisionSample = indexLoop 0 none [mkPackage "X" "1.0" 1 []] := by
  refine ⟨Or.inl rfl, Or.inr ?_, ?_, ?_⟩
  · decide
  · decide
  · decide

/-- C4 (amended): pass 1 has no collision check. For every package list, run from an
empty map it returns normally, and every claimed name ends up mapped to the last
position that claims it, so a later claimant overwrites an earlier one. -/
theorem indexLoop_returns_last_claimant (pkgs : List Package) :
    ∃ m : GoMap, indexLoop 0 (some []) pkgs = Outcome.ret m ∧
      ∀ (n : String) (i : Nat) (p : Package), pkgs[i]? = some p → Claims p n →
        (∀ (j : Nat) (q : Package), i < j → pkgs[j]? = some q → ¬ Claims q n) →
        m.lookup n = some (i : Int) := by
  obtain ⟨l2, h, hspec⟩ := indexLoop_last_writer pkgs 0 []
  refine ⟨some l2, h, ?_⟩
  intro n i p hp hc hlater
  simpa using (hspec n).1 i p hp hc hlater

/-! ## Discovery and `LoadSource` -/

/-- The callback touches the package list only: the name index stays as it was. -/
theorem visit_nameToSrcIdx (st : SourceState) (t : Tree) :
    (visit st t).1.nameToSrcIdx = st.nameToSrcIdx := by
  cases t with
  | file name => rfl
  | dir name cfg pkg children =>
    simp only [visit]
    split
    · rfl
    · cases cfg with
      | absent => cases pkg <;> rfl
      | loadError e => rfl
      | loaded b => cases b <;> cases pkg <;> rfl

mutual
/-- The walk of an entry leaves the name index as it was. -/
theorem walk_nameToSrcIdx : ∀ (t : Tree) (st : SourceState),
    (walk st t).1.nameToSrcIdx = st.nameToSrcIdx
  | Tree.file name, st => by
    have hv := visit_nameToSrcIdx st (Tree.file name)
    unfold walk
    split
    · next st1 e h => rw [h] at hv; exact hv
    · next st1 sig _ h => rw [h] at hv; exact hv
  | Tree.dir name cfg pkg children, st => by
    have hv := visit_nameToSrcIdx st (Tree.dir name cfg pkg children)
    unfold walk
    split
    · next st1 e h => rw [h] at hv; exact hv
    · next st1 h => rw [h] at hv; exact hv
    · next st1 h =>
      rw [h] at hv
      rw [walkList_nameToSrcIdx children st1]
      exact hv
/-- The walk of a list of entries leaves the name index as it was. -/
theorem walkList_nameToSrcIdx : ∀ (ts : List Tree) (st : SourceState),
    (walkList st ts).1.nameToSrcIdx = st.nameToSrcIdx
  | [], st => by unfold walkList; rfl
  | t :: rest, st => by
    have hw := walk_nameToSrcIdx t st
    unfold walkList
    split
    · next st1 e h => rw [h] at hw; exact hw
    · next st1 h =>
      rw [h] at hw
      rw [walkList_nameToSrcIdx rest st1]
      exact hw
end

/-- Pass 1 on the nil map panics at its first write. -/
theorem indexLoop_nil_panics (idx : Nat) (p : Package) (rest : List Package) :
    indexLoop idx none (p :: rest) = Outcome.panic "assignment to entry in nil map" := rfl

theorem filterMap_cons_toList {α β : Type} (f : α → Option β) (a : α) (l : List α) :
    (a :: l).filterMap f = (f a).toList ++ l.filterMap f := by
  cases h : f a <;> simp [List.filterMap_cons, h]

/-- A visit appends the package the entry contributes, and nothing else. -/
theorem visit_packages (st : SourceState) (t : Tree) :
    (visit st t).1.packages = st.packages ++ (discovered t).toList := by
  cases t with
  | file name => simp [visit, discovered]
  | dir name cfg pkg children =>
    by_cases hn : name ∈ badPackages
    · cases cfg with
      | absent => cases pkg <;> simp [visit, discovered, hn]
      | loadError e => simp [visit, discovered, hn]
      | loaded b => cases b <;> cases pkg <;> simp [visit, discovered, hn]
    · cases cfg with
      | absent => cases pkg <;> simp [visit, discovered, hn]
      | loadError e => simp [visit, discovered, hn]
      | loaded b => cases b <;> cases pkg <;> simp [visit, discovered, hn]

/-- A failing visit returns its error and leaves the state as it was. -/
theorem visit_of_fails (st : SourceState) (t : Tree) (e : String) (h : VisitFails t e) :
    visit st t = (st, Signal.error e) := by
  cases h with
  | load name msg pkg children hn => simp [visit, hn]
  | parse name cfg e children hn hc =>
    rcases hc with rfl | rfl <;> simp [visit, hn]

/-- The walk under a schedule leaves the name index as it was. -/
theorem walkSched_nameToSrcIdx (sched : List Nat) :
    ∀ (st : SourceState) (pending : List Tree),
      (walkSched sched st pending).1.nameToSrcIdx = st.nameToSrcIdx := by
  induction sched with
  | nil => intro st pending; exact walkList_nameToSrcIdx pending st
  | cons k ks ih =>
    intro st pending
    simp only [walkSched]
    split
    · rfl
    · next t _ =>
      have hv := visit_nameToSrcIdx st t
      split
      · next st1 e h => rw [h] at hv; exact hv
      · next st1 h => rw [h] at hv; rw [ih]; exact hv
      · next st1 h => rw [h] at hv; rw [ih]; exact hv

mutual
/-- The depth-first walk of an entry appends the packages of the entries it visits. -/
theorem walk_packages : ∀ (t : Tree) (st : SourceState),
    (walk st t).1.packages = st.packages ++ (walkVisits st t).filterMap discovered
  | Tree.file name, st => by
    simp [walk, walkVisits, visit, discovered]
  | Tree.dir name cfg pkg children, st => by
    have hv := visit_packages st (Tree.dir name cfg pkg children)
    cases h : visit st (Tree.dir name cfg pkg children) with
    | mk st1 sig =>
      rw [h] at hv
      simp only at hv
      cases sig with
      | nil =>
        simp only [walk, walkVisits, h]
        rw [walkList_packages children st1, hv, filterMap_cons_toList, List.append_assoc]
      | skipDir =>
        simp only [walk, walkVisits, h]
        rw [hv, filterMap_cons_toList]
        simp
      | error e =>
        simp only [walk, walkVisits, h]
        rw [hv, filterMap_cons_toList]
        simp
/-- The depth-first walk of a list of entries appends the packages of the entries it
visits. -/
theorem walkList_packages : ∀ (ts : List Tree) (st : SourceState),
    (walkList st ts).1.packages = st.packages ++ (walkListVisits st ts).filterMap discovered
  | [], st => by simp [walkList, walkListVisits]
  | t :: rest, st => by
    have hw := walk_packages t st
    cases h : walk st t with
    | mk st1 err =>
      rw [h] at hw
      simp only at hw
      cases err with
      | none =>
        simp only [walkList, walkListVisits, h]
        rw [walkList_packages rest st1, hw, List.filterMap_append, List.append_assoc]
      | some e =>
        simp only [walkList, walkListVisits, h]
        rw [hw]
        simp
end

/-- The walk under a schedule appends the packages of the entries it visits, in the
order of the visits. -/
theorem walkSched_packages (sched : List Nat) :
    ∀ (st : SourceState) (pending : List Tree),
      (walkSched sched st pending).1.packages =
        st.packages ++ (visits sched st pending).filterMap discovered := by
  induction sched with
  | nil => intro st pending; exact walkList_packages pending st
  | cons k ks ih =>
    intro st pending
    cases hp : pending[k % pending.length]? with
    | none => simp [walkSched, visits, hp]
    | some t =>
      have hv := visit_packages st t
      cases h : visit st t with
      | mk st1 sig =>
        rw [h] at hv
        simp only at hv
        cases sig with
        | nil =>
          simp only [walkSched, visits, hp, h]
          rw [ih, hv, filterMap_cons_toList, List.append_assoc]
        | skipDir =>
          simp only [walkSched, visits, hp, h]
          rw [ih, hv, filterMap_cons_toList, List.append_assoc]
        | error e =>
          simp only [walkSched, visits, hp, h]
          rw [hv, filterMap_cons_toList]
          simp

mutual
/-- The depth-first walk of an entry ends with the error of the failing visit it makes. -/
theorem walk_error_of_fails : ∀ (t0 : Tree) (st : SourceState) (t : Tree) (e : String),
    t ∈ walkVisits st t0 → VisitFails t e → (walk st t0).2 = some e
  | Tree.file name, st, t, e, hmem, hf => by
    simp only [walkVisits, List.mem_singleton] at hmem
    subst hmem
    cases hf
  | Tree.dir name cfg pkg children, st, t, e, hmem, hf => by
    cases h : visit st (Tree.dir name cfg pkg children) with
    | mk st1 sig =>
      simp only [walkVisits, h, List.mem_cons] at hmem
      rcases hmem with rfl | hmem
      · rw [visit_of_fails st _ e hf] at h
        simp only [Prod.mk.injEq] at h
        obtain ⟨rfl, rfl⟩ := h
        simp only [walk, visit_of_fails st _ e hf]
      · cases sig with
        | nil =>
          simp only [walk, h]
          exact walkList_error_of_fails children st1 t e hmem hf
        | skipDir => simp at hmem
        | error e1 => simp at hmem
/-- The depth-first walk of a list of entries ends with the error of the failing visit
it makes. -/
theorem walkList_error_of_fails : ∀ (ts : List Tree) (st : SourceState) (t : Tree)
    (e : String), t ∈ walkListVisits st ts → VisitFails t e → (walkList st ts).2 = some e
  | [], st, t, e, hmem, _ => by simp [walkListVisits] at hmem
  | t0 :: rest, st, t, e, hmem, hf => by
    cases h : walk st t0 with
    | mk st1 err =>
      simp only [walkListVisits, h, List.mem_append] at hmem
      rcases hmem with hmem | hmem
      · have hw := walk_error_of_fails t0 st t e hmem hf
        rw [h] at hw
        simp only at hw
        subst hw
        simp only [walkList, h]
      · cases err with
        | none =>
          simp only [walkList, h]
          exact walkList_error_of_fails rest st1 t e hmem hf
        | some e1 => simp at hmem
end

/-- The walk under a schedule ends with the error of the failing visit it makes. -/
theorem walkSched_error_of_fails (sched : List Nat) :
    ∀ (st : SourceState) (pending : List Tree) (t : Tree) (e : String),
      t ∈ visits sched st pending → VisitFails t e →
      (walkSched sched st pending).2 = some e := by
  induction sched with
  | nil => intro st pending t e hmem hf; exact walkList_error_of_fails pending st t e hmem hf
  | cons k ks ih =>
    intro st pending t e hmem hf
    cases hp : pending[k % pending.length]? with
    | none => simp [visits, hp] at hmem
    | some t0 =>
      cases h : visit st t0 with
      | mk st1 sig =>
        simp only [visits, hp, h, List.mem_cons] at hmem
        rcases hmem with rfl | hmem
        · rw [visit_of_fails st _ e hf] at h
          simp only [Prod.mk.injEq] at h
          obtain ⟨rfl, rfl⟩ := h
          simp only [walkSched, hp, visit_of_fails st _ e hf]
        · cases sig with
          | nil =>
            simp only [walkSched, hp, h]
            exact ih _ _ t e hmem hf
          | skipDir =>
            simp only [walkSched, hp, h]
            exact ih _ _ t e hmem hf
          | error e1 => simp at hmem

/-- Nothing pending: the walk ends at once, whatever the schedule. -/
theorem walkSched_nil_pending (sched : List Nat) (st : SourceState) :
    walkSched sched st [] = (st, none) := by
  cases sched with
  | nil => rfl
  | cons k ks => rfl

/-- Under every schedule, a pending directory that is not on the deny-list and whose
`autobuild.yml` loads with `Ignore = true` is dropped without a trace when it is the
only pending entry. -/
theorem walkSched_ignored (sched : List Nat) (st : SourceState) (name : String)
    (pkg : PkgFile) (children : List Tree) (hname : name ∉ badPackages) :
    walkSched sched st [Tree.dir name (CfgFile.loaded true) pkg children] = (st, none) := by
  have hv : visit st (Tree.dir name (CfgFile.loaded true) pkg children) =
      (st, Signal.skipDir) := by
    simp only [visit, if_neg hname]
  cases sched with
  | nil => simp only [walkSched, walkList, walk, hv]
  | cons k ks =>
    simp only [walkSched, List.length_singleton, Nat.mod_one, List.getElem?_cons_zero, hv,
      List.eraseIdx_cons_zero]
    exact walkSched_nil_pending ks st

/-- Whenever the walk completes without error and has found a package, `LoadSource`
panics in pass 1, whatever the schedule. -/
theorem LoadSource_panics_of_package (Resolve : Package → GoMap → Package)
    (sched : List Nat) (root : Tree) (st : SourceState)
    (hw : walkSched sched {} [root] = (st, none)) (hne : st.packages ≠ []) :
    LoadSource Resolve sched root = Outcome.panic "assignment to entry in nil map" := by
  have hidx : st.nameToSrcIdx = none := by
    have := walkSched_nameToSrcIdx sched {} [root]
    rw [hw] at this
    exact this
  unfold LoadSource
  rw [hw]
  simp only [hidx]
  cases hp : st.packages with
  | nil => exact absurd hp hne
  | cons p rest => rfl

/-- C5 (the code departs from the claim): `BuildGraph` panics on every snapshot, so on
no snapshot, acyclic or not, does it return or leave a dependency graph. -/
theorem BuildGraph_panics (s : SourceState) :
    s.BuildGraph = Outcome.panic "Not Implmeneted!" := rfl

/-- C8 (counterexample): a directory named `haskell-http-client-tls` whose
`autobuild.yml` loads with `Ignore = true`. Its visit returns `nil`, not `SkipDir`, and
the walk descends and finds the package of its subdirectory `sub`. -/
theorem visit_denyListed_ignored_not_pruned :
    visit {} denyListedIgnoredTree = ({}, Signal.nil) ∧
    walk {} denyListedIgnoredTree =
      ({ packages := [mkPackage "sub" "1.0" 1 []] }, none) := by
  decide

/-- C8 (amended): for a directory whose name is not on the deny-list and whose
`autobuild.yml` loads with `Ignore = true`, whatever it holds as `package.yml` and
whatever lies below it, the visit leaves the state unchanged and returns `SkipDir`,
and the walk of the directory leaves the state unchanged and reports no error. -/
theorem visit_ignored_prunes (st : SourceState) (name : String) (pkg : PkgFile)
    (children : List Tree) (hname : name ∉ badPackages) :
    visit st (Tree.dir name (CfgFile.loaded true) pkg children) = (st, Signal.skipDir) ∧
    walk st (Tree.dir name (CfgFile.loaded true) pkg children) = (st, none) := by
  have hv : visit st (Tree.dir name (CfgFile.loaded true) pkg children) =
      (st, Signal.skipDir) := by
    simp only [visit, if_neg hname]
  refine ⟨hv, ?_⟩
  unfold walk
  rw [hv]

/-- Witness for C8 (amended) on `ignoredTree`. -/
theorem visit_ignored_prunes_witness :
    "old" ∉ badPackages ∧
    visit {} ignoredTree = ({}, Signal.skipDir) ∧ walk {} ignoredTree = ({}, none) :=
  ⟨by decide, visit_ignored_prunes {} "old" _ _ (by decide)⟩

/-- C9 (counterexample): the descriptor of `a` parses and the descriptor of `b` does
not. When `a` is visited before `b`, the visit of `b` fails and `LoadSource` returns
its error together with a state whose package list still holds the package of `a`. -/
theorem LoadSource_error_keeps_packages :
    visits [] {} [failingTree] =
      [failingTree,
       Tree.dir "a" CfgFile.absent (PkgFile.parsed (mkPackage "a" "1.0" 1 []))
         [Tree.file "package.yml"],
       Tree.dir "b" CfgFile.absent
         (PkgFile.parseError "yaml: line 1: did not find expected key")
         [Tree.file "package.yml"]] ∧
    LoadSource (fun p _ => p) [] failingTree =
      Outcome.ret ({ packages := [mkPackage "a" "1.0" 1 []] },
        some "yaml: line 1: did not find expected key") :=
  ⟨rfl, rfl⟩

/-- C9 (amended): under every schedule of the walk, when the walk visits a directory
whose visit fails with the error `e` (the directory is not on the deny-list and
`config.Load` of its `autobuild.yml` fails, or its `autobuild.yml` does not mark it
ignored and `ParsePackage` fails), `LoadSource` returns normally with the error `e`;
neither pass has run: the name index of the returned state is still the nil map, and
its package list holds, untouched by `Resolve`, the packages of the directories
visited before the failure, in the order of the visits. -/
theorem LoadSource_error_aborts (Resolve : Package → GoMap → Package) (sched : List Nat)
    (root t : Tree) (e : String) (hvisit : t ∈ visits sched {} [root])
    (hfail : VisitFails t e) :
    ∃ st : SourceState, LoadSource Resolve sched root = Outcome.ret (st, some e) ∧
      st.nameToSrcIdx = none ∧
      st.packages = (visits sched {} [root]).filterMap discovered := by
  have hidx := walkSched_nameToSrcIdx sched {} [root]
  have hpk := walkSched_packages sched {} [root]
  have herr := walkSched_error_of_fails sched {} [root] t e hvisit hfail
  cases hw : walkSched sched {} [root] with
  | mk st err =>
    rw [hw] at herr hidx hpk
    simp only at herr hidx hpk
    subst herr
    refine ⟨st, ?_, hidx, ?_⟩
    · unfold LoadSource
      rw [hw]
    · simpa using hpk

/-- Witness for C9 (amended): in `nestedFailingTree` under the schedule that visits
`pkgs`, `d`, `a`, `c` and then `b`, the visit of `b` fails after the packages of `a`
and `c` were appended. -/
theorem LoadSource_error_aborts_witness :
    visits [0, 1, 1, 0, 0] {} [nestedFailingTree] =
      [nestedFailingTree,
       Tree.dir "d" CfgFile.absent PkgFile.absent
         [Tree.dir "a" (CfgFile.loaded false) (PkgFile.parsed (mkPackage "a" "1.0" 1 [])) [],
          Tree.dir "b" CfgFile.absent (PkgFile.parseError "yaml: mapping values") []],
       Tree.dir "a" (CfgFile.loaded false) (PkgFile.parsed (mkPackage "a" "1.0" 1 [])) [],
       Tree.dir "c" CfgFile.absent (PkgFile.parsed (mkPackage "c" "2.0" 3 [])) [],
       Tree.dir "b" CfgFile.absent (PkgFile.parseError "yaml: mapping values") []] ∧
    LoadSource (fun p _ => p) [0, 1, 1, 0, 0] nestedFailingTree =
      Outcome.ret ({ packages := [mkPackage "a" "1.0" 1 [], mkPackage "c" "2.0" 3 []] },
        some "yaml: mapping values") ∧
    ∃ st : SourceState,
      LoadSource (fun p _ => p) [0, 1, 1, 0, 0] nestedFailingTree =
        Outcome.ret (st, some "yaml: mapping values") ∧
      st.nameToSrcIdx = none ∧
      st.packages = (visits [0, 1, 1, 0, 0] {} [nestedFailingTree]).filterMap discovered :=
  ⟨rfl, rfl,
   LoadSource_error_aborts (fun p _ => p) [0, 1, 1, 0, 0] nestedFailingTree
     (Tree.dir "b" CfgFile.absent (PkgFile.parseError "yaml: mapping values") [])
     "yaml: mapping values"
     (List.Mem.tail _ (List.Mem.tail _ (List.Mem.tail _ (List.Mem.tail _ (List.Mem.head _)))))
     (VisitFails.parse "b" CfgFile.absent "yaml: mapping values" [] (by decide)
       (Or.inl rfl))⟩

/-- C10 (the code departs from the claim): under every schedule the walk of
`onePackageTree` completes without error and finds one package; `LoadSource` then
panics at the first write of pass 1, because the name index of its zero-valued result
is the nil map. -/
theorem LoadSource_nil_map_panic (Resolve : Package → GoMap → Package)
    (sched : List Nat) :
    walkSched sched {} [onePackageTree] =
      ({ packages := [mkPackage "a" "1.0" 1 []] }, none) ∧
    LoadSource Resolve sched onePackageTree =
      Outcome.panic "assignment to entry in nil map" := by
  have hw : walkSched sched {} [onePackageTree] =
      ({ packages := [mkPackage "a" "1.0" 1 []] }, none) := by
    cases sched with
    | nil => rfl
    | cons k ks =>
      cases ks with
      | nil =>
        simp only [walkSched, List.length_singleton, Nat.mod_one]
        rfl
      | cons k2 ks2 =>
        simp only [walkSched, List.length_singleton, Nat.mod_one]
        simp only [onePackageTree, List.getElem?_cons_zero, visit, entries,
          List.eraseIdx_cons_zero, List.nil_append, List.length_singleton, Nat.mod_one]
        simp only [badPackages, List.mem_singleton]
        simp only [show ¬ ("pkgs" = "haskell-http-client-tls") by decide,
          show ¬ ("a" = "haskell-http-client-tls") by decide, if_false]
        exact walkSched_nil_pending ks2 _
  exact ⟨hw, LoadSource_panics_of_package Resolve sched onePackageTree _ hw (by simp)⟩

end Autobuild
